import Mathlib

/-!
Verification development for the MPS-based incremental GC integration layer
of the emacs-mps repository (igc.c / igc.h).  Machine words are modelled as
`Nat`; bitwise operations (`&&&`, `|||`, `^^^`) coincide with the 64-bit C
operations because none of them can overflow.  Memory is modelled as a
function from word addresses (byte-addressed, 8-byte words) to word values;
fallible operations (assertion failure, MPS_FIX2 failure, commit retry)
return `Option`.
-/

namespace EmacsIgc

/-! ### Bitwise helper lemmas -/

theorem and_seven_eq_mod (w : Nat) : w &&& 7 = w % 8 := by
  simpa using Nat.and_pow_two_sub_one_eq_mod w 3

theorem or_and_distrib (x y z : Nat) : (x ||| y) &&& z = (x &&& z) ||| (y &&& z) := by
  apply Nat.eq_of_testBit_eq
  intro i
  simp only [Nat.testBit_or, Nat.testBit_and]
  cases x.testBit i <;> cases y.testBit i <;> cases z.testBit i <;> rfl

theorem xor_masked_restore (w m : Nat) : (w ^^^ w &&& m) ||| w &&& m = w := by
  apply Nat.eq_of_testBit_eq
  intro i
  simp only [Nat.testBit_or, Nat.testBit_xor, Nat.testBit_and]
  cases w.testBit i <;> cases m.testBit i <;> rfl

theorem or_xor_cancel (p t : Nat) (h : p &&& t = 0) : (p ||| t) ^^^ t = p := by
  apply Nat.eq_of_testBit_eq
  intro i
  have h2 := congrArg (fun x => Nat.testBit x i) h
  simp only [Nat.testBit_and, Nat.zero_testBit] at h2
  simp only [Nat.testBit_xor, Nat.testBit_or]
  cases hp : p.testBit i <;> cases ht : t.testBit i <;> simp_all

theorem aligned_and_seven (x : Nat) (hx : x % 8 = 0) : x &&& 7 = 0 := by
  rw [and_seven_eq_mod]; exact hx

theorem and_seven_idem (w : Nat) : (w &&& 7) &&& 7 = w &&& 7 := by
  have h77 : (7 : Nat) &&& 7 = 7 := by decide
  rw [Nat.and_assoc, h77]

theorem aligned_or_tag (x t : Nat) (hx : x % 8 = 0) :
    (x ||| (t &&& 7)) &&& 7 = t &&& 7 := by
  rw [or_and_distrib, aligned_and_seven x hx, and_seven_idem, Nat.zero_or]

theorem aligned_and_three (x : Nat) (hx : x % 8 = 0) : x &&& 3 = 0 := by
  have h7 : x &&& 7 = 0 := aligned_and_seven x hx
  have h73 : (7 : Nat) &&& 3 = 3 := by decide
  rw [← h73, ← Nat.and_assoc, h7, Nat.zero_and]

/-! ### Tagged-word codec

The tag constants come from the runtime header (lisp.h, outside the staged
sources).  Modelled from the spec: the low 3 bits of a word are the tag,
two tag values are reserved for fixnums (immediate integers), one tag is
the symbol tag whose payload is an offset into the built-in symbol table,
and one is the cons tag.  The concrete values are the ones the comments of
igc.c rely on (USE_LSB_TAG, 3 low tag bits). -/

def IGC_TAG_MASK : Nat := 7

def Lisp_Symbol : Nat := 0

def Lisp_Int0 : Nat := 2

def Lisp_Cons : Nat := 3

def Lisp_Int1 : Nat := 6

/-- Modelled from the spec: the codec operation `make(payload, tag)` of
lisp.h (make_lisp_ptr / TAG_PTR with low-bit tags), which is outside the
staged sources. -/
def make_lisp_ptr (p tag : Nat) : Nat := p ||| tag

/-! ### The fix protocol (IGC_FIX macro of igc.c)

The collector side (MPS_FIX1 / MPS_FIX2) is external to the repository; it
is modelled as a pair of functions: `fix1` says whether the address is of
interest to the collector, `fix2` returns the possibly updated address
(`none` models a non-OK result code, which the macro propagates by
returning from the scan function). -/

structure MpsScanState where
  fix1 : Nat → Bool
  fix2 : Nat → Option Nat

/-- Reference address of a candidate word, as IGC_FIX computes it before
consulting the collector: the payload `word ^ tag`, with the symbol-table
base `lispsym` added when the tag is the symbol tag. -/
def igcRefOf (lispsym w : Nat) : Nat :=
  if w &&& IGC_TAG_MASK = Lisp_Symbol then lispsym + (w ^^^ w &&& IGC_TAG_MASK)
  else w ^^^ w &&& IGC_TAG_MASK

/-- Shallow embedding of the IGC_FIX macro of igc.c.  The result is the
word stored at the scanned slot afterwards (`some`), or `none` when
MPS_FIX2 failed and the scan function returns its result code.  Immediate
integer tags are never references; the symbol tag re-encodes by
subtracting the base again; the written word is `ref | tag`. -/
def IGC_FIX (ss : MpsScanState) (lispsym w : Nat) : Option Nat :=
  if w &&& IGC_TAG_MASK = Lisp_Int0 ∨ w &&& IGC_TAG_MASK = Lisp_Int1 then some w
  else if ss.fix1 (igcRefOf lispsym w) then
    match ss.fix2 (igcRefOf lispsym w) with
    | none => none
    | some newref =>
        some ((if w &&& IGC_TAG_MASK = Lisp_Symbol then newref - lispsym else newref)
              ||| (w &&& IGC_TAG_MASK))
  else some w

/-- C2: the fix protocol is tag-preserving.  Under the MPS format contract
(the collector relocates objects to 8-byte aligned addresses, and the
built-in symbol table base is 8-byte aligned), the word IGC_FIX writes
back to a scanned slot always carries the same low-3-bit tag as the word
it read. -/
theorem IGC_FIX_tag_preserving (ss : MpsScanState) (lispsym w w2 : Nat)
    (hfix2 : ∀ r x, ss.fix2 r = some x → x % 8 = 0)
    (hsym : lispsym % 8 = 0)
    (h : IGC_FIX ss lispsym w = some w2) :
    w2 &&& 7 = w &&& 7 := by
  unfold IGC_FIX at h
  split at h
  · cases h; rfl
  · split at h
    · rcases hx : ss.fix2 (igcRefOf lispsym w) with _ | nr
      · rw [hx] at h; cases h
      · rw [hx] at h
        have hnr : nr % 8 = 0 := hfix2 _ _ hx
        have halign : (if w &&& IGC_TAG_MASK = Lisp_Symbol then nr - lispsym else nr) % 8 = 0 := by
          split
          · omega
          · exact hnr
        cases h
        show ((if w &&& IGC_TAG_MASK = Lisp_Symbol then nr - lispsym else nr)
              ||| (w &&& IGC_TAG_MASK)) &&& 7 = w &&& 7
        have : w &&& IGC_TAG_MASK = w &&& 7 := rfl
        rw [this] at halign ⊢
        exact aligned_or_tag _ w halign
    · cases h; rfl

def ssTagW : MpsScanState := ⟨fun _ => true, fun _ => some 24⟩

theorem IGC_FIX_tag_preserving_witness :
    IGC_FIX ssTagW 0 19 = some 27 ∧ 27 &&& 7 = 19 &&& 7 :=
  ⟨by decide,
   IGC_FIX_tag_preserving ssTagW 0 19 27
     (fun r x h => by injection h with h; omega) (by decide) (by decide)⟩

/-- C3: for a word carrying the symbol tag, IGC_FIX consults the collector
at address `symbol_table_base + payload`; when the collector updates the
reference, the base is subtracted again before re-encoding, so the stored
payload stays an offset into the built-in symbol table; and when the
collector leaves the address unchanged (the table itself never moves), the
word is unchanged, so the reference resolves to the same built-in symbol
after a collection. -/
theorem IGC_FIX_symbol_offset (ss : MpsScanState) (lispsym w : Nat)
    (htag : w &&& IGC_TAG_MASK = Lisp_Symbol) :
    igcRefOf lispsym w = lispsym + (w ^^^ w &&& IGC_TAG_MASK)
    ∧ (∀ nr, ss.fix1 (lispsym + (w ^^^ w &&& IGC_TAG_MASK)) = true →
        ss.fix2 (lispsym + (w ^^^ w &&& IGC_TAG_MASK)) = some nr →
        IGC_FIX ss lispsym w = some ((nr - lispsym) ||| Lisp_Symbol))
    ∧ (ss.fix2 (lispsym + (w ^^^ w &&& IGC_TAG_MASK)) = some (lispsym + (w ^^^ w &&& IGC_TAG_MASK)) →
        IGC_FIX ss lispsym w = some w) := by
  have href : igcRefOf lispsym w = lispsym + (w ^^^ w &&& IGC_TAG_MASK) := by
    unfold igcRefOf
    rw [if_pos htag]
  have hnotimm : ¬ (w &&& IGC_TAG_MASK = Lisp_Int0 ∨ w &&& IGC_TAG_MASK = Lisp_Int1) := by
    rw [htag]; decide
  refine ⟨href, ?_, ?_⟩
  · intro nr h1 h2
    unfold IGC_FIX
    rw [if_neg hnotimm, href, if_pos h1, h2]
    simp [htag]
  · intro h2
    unfold IGC_FIX
    rw [if_neg hnotimm, href]
    rcases h1 : ss.fix1 (lispsym + (w ^^^ w &&& IGC_TAG_MASK))
    · rw [if_neg (by simp [h1])]
    · rw [if_pos (by simp [h1]), h2]
      simp only [htag, Lisp_Symbol, Nat.add_sub_cancel_left]
      simp [Nat.xor_zero, Nat.or_zero]

def ssSymW : MpsScanState := ⟨fun _ => true, fun r => some r⟩

theorem IGC_FIX_symbol_offset_witness :
    40 &&& IGC_TAG_MASK = Lisp_Symbol ∧ IGC_FIX ssSymW 64 40 = some 40 :=
  ⟨by decide, (IGC_FIX_symbol_offset ssSymW 64 40 (by decide)).2.2 rfl⟩

/-! ### Allocation points (igc_make_cons, igc_alloc_symbol)

The MPS reserve/commit protocol is modelled by a list of attempts: each
attempt is the address mps_reserve returned and the boolean result of
mps_commit (false = retry, the loop body runs again).  Memory is
`Nat → Option Nat` so that an uninitialized word is observable (`none`).
A cons is two words: car at its address, cdr 8 bytes further (struct
Lisp_Cons of lisp.h, outside the staged sources, modelled from the spec:
a cons object is exactly its two reference slots). -/

structure AllocStep where
  addr : Nat
  commitOk : Bool

def updOSlot (mem : Nat → Option Nat) (a : Nat) (v : Option Nat) : Nat → Option Nat :=
  fun q => if q = a then v else mem q

/-- Shallow embedding of igc_make_cons of igc.c: reserve, write both
fields, commit; on a commit retry the loop restarts from reserve and
re-initializes both fields.  `none` means the attempt list was exhausted
without a successful commit (the C loop would still be running). -/
def igc_make_cons (attempts : List AllocStep) (mem : Nat → Option Nat)
    (car cdr : Nat) : Option ((Nat → Option Nat) × Nat) :=
  match attempts with
  | [] => none
  | s :: rest =>
      let mem1 := updOSlot (updOSlot mem s.addr (some car)) (s.addr + 8) (some cdr)
      if s.commitOk then some (mem1, make_lisp_ptr s.addr Lisp_Cons)
      else igc_make_cons rest mem1 car cdr

/-- Modelled from the spec: make_lisp_symbol of lisp.h (outside the staged
sources) encodes a symbol pointer as its offset from the built-in symbol
table base, tagged with the symbol tag. -/
def make_lisp_symbol (lispsym p : Nat) : Nat := (p - lispsym) ||| Lisp_Symbol

/-- Shallow embedding of igc_alloc_symbol of igc.c: reserve, then commit
immediately — the loop body writes nothing into the reserved object. -/
def igc_alloc_symbol (lispsym : Nat) (attempts : List AllocStep)
    (mem : Nat → Option Nat) : Option ((Nat → Option Nat) × Nat) :=
  match attempts with
  | [] => none
  | s :: rest =>
      if s.commitOk then some (mem, make_lisp_symbol lispsym s.addr)
      else igc_alloc_symbol lispsym rest mem

/-- C1: a call to igc_make_cons whose commit eventually succeeds returns a
cons-tagged value whose car slot holds `a` and whose cdr slot holds `b`
immediately after the successful commit, for any number of commit retries
before it; each retry restarts from reserve and re-writes both fields, so
the result holds even when a failed attempt used the same address.
Hypothesis: MPS reserve returns addresses aligned to the 8-byte format
alignment. -/
theorem igc_make_cons_correct
    (attempts : List AllocStep) (mem : Nat → Option Nat) (a b : Nat)
    (mem2 : Nat → Option Nat) (v : Nat)
    (halign : ∀ s ∈ attempts, s.addr % 8 = 0)
    (h : igc_make_cons attempts mem a b = some (mem2, v)) :
    v &&& 7 = Lisp_Cons ∧ mem2 (v ^^^ Lisp_Cons) = some a
    ∧ mem2 ((v ^^^ Lisp_Cons) + 8) = some b := by
  induction attempts generalizing mem with
  | nil => cases h
  | cons s rest ih =>
      have hs : s.addr % 8 = 0 := halign s (List.mem_cons_self s rest)
      unfold igc_make_cons at h
      by_cases hc : s.commitOk
      · rw [if_pos hc] at h
        obtain ⟨hmem, hv⟩ := Prod.mk.inj (Option.some.inj h)
        have hv3 : v = s.addr ||| Lisp_Cons := hv.symm
        have h3 : s.addr &&& 3 = 0 := aligned_and_three s.addr hs
        have hxor : v ^^^ Lisp_Cons = s.addr := by
          rw [hv3]
          exact or_xor_cancel s.addr Lisp_Cons h3
        have htag : v &&& 7 = Lisp_Cons := by
          rw [hv3]
          have := aligned_or_tag s.addr Lisp_Cons hs
          simpa [Lisp_Cons] using this
        refine ⟨htag, ?_, ?_⟩
        · rw [hxor, ← hmem]
          simp [updOSlot]
        · rw [hxor, ← hmem]
          simp [updOSlot]
      · rw [if_neg hc] at h
        exact ih _ (fun t ht => halign t (List.mem_cons_of_mem s ht)) h

def consAttemptsW : List AllocStep := [⟨16, false⟩, ⟨32, true⟩]

def consMemW : Nat → Option Nat :=
  updOSlot (updOSlot (updOSlot (updOSlot (fun _ => none) 16 (some 9)) 24 (some 11))
    32 (some 9)) 40 (some 11)

theorem igc_make_cons_correct_witness :
    igc_make_cons consAttemptsW (fun _ => none) 9 11 = some (consMemW, 35)
    ∧ (35 &&& 7 = Lisp_Cons ∧ consMemW (35 ^^^ Lisp_Cons) = some 9
       ∧ consMemW ((35 ^^^ Lisp_Cons) + 8) = some 11) :=
  ⟨rfl,
   igc_make_cons_correct consAttemptsW (fun _ => none) 9 11 consMemW 35
     (by decide) rfl⟩

/-- C5 failing input: a single reserve/commit round for a symbol, starting
from all-uninitialized memory.  igc_alloc_symbol commits without writing a
single word: the committed memory is unchanged, so every reference slot of
the new symbol (name, value, function, plist, package) is still
uninitialized at commit — contradicting the claim (and the reserve/commit
contract of the spec); igc_make_cons, by contrast, initializes both of its
slots before commit (see igc_make_cons_correct). -/
theorem igc_alloc_symbol_commits_uninitialized :
    igc_alloc_symbol 0 [⟨1000, true⟩] (fun _ => none)
      = some ((fun _ => none), make_lisp_symbol 0 1000)
    ∧ make_lisp_symbol 0 1000 = 1000
    ∧ (fun _ : Nat => (none : Option Nat)) 1000 = none := by
  refine ⟨rfl, by decide, rfl⟩

/-! ### Finalization channel and idle tick

The finalization state: the pending finalization message queue (referent
addresses), the `function` field of the Lisp_Finalizer object at each
address (`Qnil = 0` means no callback), and the log of callbacks actually
run (address, function) in order.  `collectorWork` abstracts the pending
collector work in milliseconds. -/

def Qnil : Nat := 0

structure GcState where
  collectorWork : Nat
  msgs : List Nat
  fin : Nat → Nat
  ran : List (Nat × Nat)

/-- Modelled from the spec: mps_arena_step is MPS-internal; it advances
the collector by at most the given time slice (milliseconds here; the C
call passes seconds) and does not run message handlers or finalizers. -/
def mps_arena_step (s : GcState) (interval_ms _multiplier : Nat) : GcState :=
  { s with collectorWork := s.collectorWork - interval_ms }

/-- Shallow embedding of igc_on_idle of igc.c: its whole body is the
single call mps_arena_step (arena, 0.01, 0); 0.01 s = 10 ms. -/
def igc_on_idle (s : GcState) : GcState := mps_arena_step s 10 0

/-- Shallow embedding of do_finalize of igc.c: if the finalizer object at
`addr` still has a non-nil function, clear the field first and then run
the function (recorded in `ran`); otherwise do nothing. -/
def do_finalize (s : GcState) (addr : Nat) : GcState :=
  if s.fin addr ≠ Qnil then
    { s with fin := fun q => if q = addr then Qnil else s.fin q,
             ran := s.ran ++ [(addr, s.fin addr)] }
  else s

/-- Shallow embedding of handle_messages of igc.c: pop finalization
messages until the queue is empty and do_finalize each referent. -/
def handle_messages (s : GcState) : GcState :=
  s.msgs.foldl do_finalize { s with msgs := [] }

inductive FinEvent where
  | enqueue : Nat → FinEvent
  | drain : FinEvent

/-- One step of the mutator-visible finalization history: the collector
posts a message, or some thread drains the queue (igc_handle_messages). -/
def finStep (s : GcState) : FinEvent → GcState
  | .enqueue a => { s with msgs := s.msgs ++ [a] }
  | .drain => handle_messages s

def runEvents (s : GcState) (es : List FinEvent) : GcState := es.foldl finStep s

/-- How often the callback of the finalizer object at address `a` has run. -/
def countRuns (a : Nat) (ran : List (Nat × Nat)) : Nat :=
  ran.countP (fun pr => pr.1 == a)

theorem countRuns_append (a : Nat) (l1 l2 : List (Nat × Nat)) :
    countRuns a (l1 ++ l2) = countRuns a l1 + countRuns a l2 := by
  unfold countRuns
  exact List.countP_append _ _ _

/-- One-shot invariant: the callback at `a` has run at most once, and if
it has run, the field is already cleared. -/
def OneShotInv (s : GcState) (a : Nat) : Prop :=
  countRuns a s.ran + (if s.fin a = Qnil then 0 else 1) ≤ 1

theorem do_finalize_inv (s : GcState) (addr a : Nat) (h : OneShotInv s a) :
    OneShotInv (do_finalize s addr) a := by
  unfold OneShotInv at h ⊢
  unfold do_finalize
  by_cases hnil : s.fin addr ≠ Qnil
  · rw [if_pos hnil]
    by_cases haddr : a = addr
    · subst haddr
      rw [if_neg hnil] at h
      have hone : countRuns a [(a, s.fin a)] = 1 := by
        simp [countRuns, List.countP_cons]
      simp [countRuns_append, hone]
      omega
    · have hne : addr ≠ a := fun hh => haddr hh.symm
      have hzero : countRuns a [(addr, s.fin addr)] = 0 := by
        simp [countRuns, List.countP_cons, hne]
      simpa [countRuns_append, hzero, haddr] using h
  · rw [if_neg hnil]
    exact h

theorem foldl_do_finalize_inv (msgs : List Nat) (s : GcState) (a : Nat)
    (h : OneShotInv s a) : OneShotInv (msgs.foldl do_finalize s) a := by
  induction msgs generalizing s with
  | nil => exact h
  | cons m rest ih => exact ih _ (do_finalize_inv s m a h)

theorem handle_messages_inv (s : GcState) (a : Nat) (h : OneShotInv s a) :
    OneShotInv (handle_messages s) a := by
  unfold handle_messages
  exact foldl_do_finalize_inv s.msgs _ a h

theorem runEvents_inv (es : List FinEvent) (s : GcState) (a : Nat)
    (h : OneShotInv s a) : OneShotInv (runEvents s es) a := by
  induction es generalizing s with
  | nil => exact h
  | cons e rest ih =>
      refine ih _ ?_
      cases e with
      | enqueue b => exact h
      | drain => exact handle_messages_inv s a h

/-- C9: the finalization drain pops messages until the queue is empty; a
message whose finalizer object has a nil callback does nothing; otherwise
the callback field is cleared (before the callback runs) and the run is
recorded; consequently, over any sequence of drains and message posts, a
finalizer whose callback has not yet run runs it at most once. -/
theorem handle_messages_one_shot :
    (∀ s : GcState, (handle_messages s).msgs = [])
    ∧ (∀ (s : GcState) (addr : Nat), s.fin addr = Qnil → do_finalize s addr = s)
    ∧ (∀ (s : GcState) (addr : Nat), s.fin addr ≠ Qnil →
        (do_finalize s addr).fin addr = Qnil
        ∧ (do_finalize s addr).ran = s.ran ++ [(addr, s.fin addr)])
    ∧ (∀ (s : GcState) (es : List FinEvent) (a : Nat),
        countRuns a s.ran = 0 → countRuns a (runEvents s es).ran ≤ 1) := by
  refine ⟨?_, ?_, ?_, ?_⟩
  · intro s
    have hmain : ∀ (msgs : List Nat) (t : GcState), t.msgs = [] →
        (msgs.foldl do_finalize t).msgs = [] := by
      intro msgs
      induction msgs with
      | nil => intro t ht; exact ht
      | cons m rest ih =>
          intro t ht
          refine ih _ ?_
          unfold do_finalize
          split
          · exact ht
          · exact ht
    exact hmain s.msgs _ rfl
  · intro s addr hq
    unfold do_finalize
    rw [if_neg (by simp [hq])]
  · intro s addr hq
    unfold do_finalize
    rw [if_pos hq]
    exact ⟨by simp, rfl⟩
  · intro s es a h0
    have hinv : OneShotInv s a := by
      unfold OneShotInv
      rw [h0]
      split <;> omega
    have := runEvents_inv es s a hinv
    unfold OneShotInv at this
    omega

def finStateW : GcState := ⟨0, [], fun a => if a = 5 then 9 else Qnil, []⟩

def finEventsW : List FinEvent :=
  [.drain, .enqueue 5, .drain, .enqueue 5, .drain]

theorem handle_messages_one_shot_witness :
    countRuns 5 finStateW.ran = 0
    ∧ countRuns 5 (runEvents finStateW finEventsW).ran ≤ 1 :=
  ⟨by decide, handle_messages_one_shot.2.2.2 finStateW finEventsW 5 (by decide)⟩

def finStateWithMsg : GcState := ⟨25, [42], fun a => if a = 42 then 7 else Qnil, []⟩

/-- C6 counterexample: a state with one pending finalization message and a
live callback.  igc_on_idle advances the collector (its body is exactly
one mps_arena_step with a 10 ms slice) but leaves the message queue full
and runs no finalizer, while the drain function handle_messages does
empty the queue and run the callback — so on_idle does not drain the
finalization queue, contrary to the claim. -/
theorem igc_on_idle_does_not_drain :
    (igc_on_idle finStateWithMsg).msgs = [42]
    ∧ (igc_on_idle finStateWithMsg).ran = []
    ∧ (igc_on_idle finStateWithMsg).collectorWork = 15
    ∧ (handle_messages finStateWithMsg).msgs = []
    ∧ (handle_messages finStateWithMsg).ran = [(42, 7)] := by
  refine ⟨rfl, rfl, by decide, by decide, by decide⟩

/-- C6 (amended): every call to on_idle advances the collector by a time
slice bounded by the default 10 ms and leaves the finalization state
(queue, finalizer fields, run log) untouched; finalizers are drained only
by handle_messages. -/
theorem igc_on_idle_steps_only (s : GcState) :
    (igc_on_idle s).msgs = s.msgs
    ∧ (igc_on_idle s).ran = s.ran
    ∧ (igc_on_idle s).fin = s.fin
    ∧ (igc_on_idle s).collectorWork = s.collectorWork - 10 :=
  ⟨rfl, rfl, rfl, rfl⟩

/-! ### Forwarding and padding markers (format callbacks)

Word-level memory `Nat → Nat` (addresses in bytes, 8-byte words).  The
forwarding and padding signatures are one-word values unique per process
(addresses of private statics in the C code); they are parameters here.
IGC_DEBUG is defined to 1 in igc.h, so IGC_ASSERT is active; an assertion
failure (emacs_abort) is modelled as `none`. -/

def igcDebug : Bool := true

def updSlot (mem : Nat → Nat) (a v : Nat) : Nat → Nat :=
  fun q => if q = a then v else mem q

/-- Shallow embedding of is_forwarded of igc.c: the new address stored in
the second word if the first word at addr equals the forwarding
signature, otherwise `none` (NULL). -/
def is_forwarded (fwdsig : Nat) (mem : Nat → Nat) (addr : Nat) : Option Nat :=
  if mem addr = fwdsig then some (mem (addr + 8)) else none

/-- Shallow embedding of cons_isfwd of igc.c.  Its body is
IGC_ASSERT (false); return is_forwarded (addr); — so with IGC_DEBUG (set
in igc.h) every call aborts (outer `none`); without it, the call returns
the is_forwarded result. -/
def cons_isfwd (debug : Bool) (fwdsig : Nat) (mem : Nat → Nat) (addr : Nat) :
    Option (Option Nat) :=
  if debug then none else some (is_forwarded fwdsig mem addr)

/-- Shallow embedding of is_padding of igc.c. -/
def is_padding (padsig : Nat) (mem : Nat → Nat) (addr : Nat) : Bool :=
  mem addr == padsig

/-- The filler loop of pad of igc.c: the loop copies the 8-byte pattern
"padding\0" chunk-wise (n = min (8, end - p) bytes, p += n); at word
granularity, for the word-multiple sizes the pool alignment dictates,
this writes the pattern word at every word of [p, e). -/
def fillWords (fill : Nat) (mem : Nat → Nat) (p e : Nat) : Nat → Nat :=
  if p < e then fillWords fill (updSlot mem p fill) (p + 8) e else mem
termination_by e - p
decreasing_by omega

/-- Shallow embedding of pad of igc.c: first IGC_ASSERT (size <= sizeof
padding) — active because IGC_DEBUG is set, so any size above one word
aborts (`none`) — then write the signature word at addr and fill the rest
of [addr, addr + size) with the filler pattern. -/
def pad (debug : Bool) (padsig fill : Nat) (mem : Nat → Nat) (addr size : Nat) :
    Option (Nat → Nat) :=
  if debug ∧ ¬ size ≤ 8 then none
  else some (fillWords fill (updSlot mem addr padsig) (addr + 8) (addr + size))

/-- C7 failing input: pad at address 0 with size 16 — a size that is a
multiple of the 8-byte pool alignment and at least the one-word marker
size, e.g. the hole left by a single dead cons.  In the debug build
igc.h configures, the assertion size <= sizeof padding aborts for every
size larger than one word, although the fill loop directly below it is
written to handle exactly those sizes (as the non-debug evaluation
shows: signature word written, is_padding true, filler written). -/
theorem pad_assertion_aborts :
    pad igcDebug 1 2 (fun _ => 0) 0 16 = none
    ∧ 16 % 8 = 0
    ∧ 8 ≤ 16
    ∧ (pad false 1 2 (fun _ => 0) 0 16).map (fun m => (m 0, m 8, is_padding 1 m 0))
        = some (1, 2, true)
    ∧ (pad igcDebug 1 2 (fun _ => 0) 0 8).map (fun m => is_padding 1 m 0)
        = some true := by
  refine ⟨by simp [pad, igcDebug], by decide, by decide, ?_, ?_⟩
  · have h16 : fillWords 2 (updSlot (fun _ => 0) 0 1) 8 16
        = updSlot (updSlot (fun _ => 0) 0 1) 8 2 := by
      rw [fillWords, if_pos (by omega), fillWords, if_neg (by omega)]
    simp [pad, h16, updSlot, is_padding]
  · have h8 : fillWords 2 (updSlot (fun _ => 0) 0 1) 8 8
        = updSlot (fun _ => 0) 0 1 := by
      rw [fillWords, if_neg (by omega)]
    simp [pad, igcDebug, h8, updSlot, is_padding]

def memFwdW : Nat → Nat := fun q => if q = 0 then 1 else 42

/-- C8 counterexample: a memory whose first word at address 0 is the
forwarding signature (1) and whose second word holds the new address 42.
The claim says the cons pool format its is-forwarded callback returns the
new address here without aborting; cons_isfwd instead fails its
unconditional IGC_ASSERT (false) and aborts (outer none) in the debug
build igc.h configures, even though the underlying helper does return the
new address. -/
theorem cons_isfwd_aborts_in_debug :
    igcDebug = true
    ∧ memFwdW 0 = 1
    ∧ cons_isfwd igcDebug 1 memFwdW 0 = none
    ∧ is_forwarded 1 memFwdW 0 = some 42 := by
  refine ⟨rfl, by decide, rfl, by decide⟩

/-- C8 (amended): the helper is_forwarded returns the stored new address
exactly when the first word at addr equals the forwarding signature, and
NULL (none) otherwise; but the cons pool format registers cons_isfwd,
which performs an always-failing assertion first, so in debug builds
(IGC_DEBUG, set in igc.h) it aborts for every address instead of
returning; only without IGC_DEBUG does it return the is_forwarded
result. -/
theorem cons_isfwd_characterization (fwdsig : Nat) (mem : Nat → Nat) (addr : Nat) :
    cons_isfwd true fwdsig mem addr = none
    ∧ cons_isfwd false fwdsig mem addr = some (is_forwarded fwdsig mem addr)
    ∧ (is_forwarded fwdsig mem addr).isSome = (mem addr == fwdsig)
    ∧ (is_forwarded fwdsig mem addr).getD (mem (addr + 8)) = mem (addr + 8) := by
  refine ⟨rfl, rfl, ?_, ?_⟩
  · unfold is_forwarded
    by_cases h : mem addr = fwdsig <;> simp [h]
  · unfold is_forwarded
    by_cases h : mem addr = fwdsig <;> simp [h]

/-! ### The cons pool scanner (cons_scan of igc.c)

A Lisp_Cons is 16 bytes: car at the object address, cdr 8 bytes further.
cons_scan walks [base, limit) in address order in steps of one cons; an
object whose first word is the forwarding or padding signature is
skipped; otherwise IGC_FIX is applied to the car slot and then to the cdr
slot.  The fix step is abstracted as `fixw` (IGC_FIX with its scan state
and symbol base fixed); `none` propagates a failed MPS_FIX2, aborting the
scan. -/

def cons_scan (fixw : Nat → Option Nat) (fwdsig padsig : Nat)
    (base limit : Nat) (mem : Nat → Nat) : Option (Nat → Nat) :=
  if base < limit then
    if mem base = fwdsig ∨ mem base = padsig then
      cons_scan fixw fwdsig padsig (base + 16) limit mem
    else
      match fixw (mem base) with
      | none => none
      | some car2 =>
          match fixw (updSlot mem base car2 (base + 8)) with
          | none => none
          | some cdr2 =>
              cons_scan fixw fwdsig padsig (base + 16) limit
                (updSlot (updSlot mem base car2) (base + 8) cdr2)
  else some mem
termination_by limit - base
decreasing_by all_goals omega

/-- The addresses of the cons-sized objects in [base, limit), in the
address order the scanner visits them. -/
def objAddrs (base limit : Nat) : List Nat :=
  if base < limit then base :: objAddrs (base + 16) limit else []
termination_by limit - base
decreasing_by omega

theorem objAddrs_lower (base limit : Nat) :
    ∀ p ∈ objAddrs base limit, base ≤ p ∧ p < limit := by
  intro p hp
  rw [objAddrs] at hp
  by_cases h : base < limit
  · rw [if_pos h] at hp
    rcases List.mem_cons.mp hp with rfl | hp2
    · exact ⟨Nat.le_refl _, h⟩
    · have ih := objAddrs_lower (base + 16) limit p hp2
      omega
  · rw [if_neg h] at hp
    cases hp
termination_by limit - base
decreasing_by omega

theorem cons_scan_aux (fixw : Nat → Option Nat) (fwdsig padsig limit base : Nat)
    (mem mem2 : Nat → Nat)
    (h : cons_scan fixw fwdsig padsig base limit mem = some mem2) :
    (∀ q, (∀ p ∈ objAddrs base limit, q ≠ p ∧ q ≠ p + 8) → mem2 q = mem q)
    ∧ (∀ p ∈ objAddrs base limit,
        ((mem p = fwdsig ∨ mem p = padsig) →
           mem2 p = mem p ∧ mem2 (p + 8) = mem (p + 8))
        ∧ ((mem p ≠ fwdsig ∧ mem p ≠ padsig) →
           fixw (mem p) = some (mem2 p) ∧ fixw (mem (p + 8)) = some (mem2 (p + 8)))) := by
  by_cases hlt : base < limit
  · rw [cons_scan, if_pos hlt] at h
    have hobj : objAddrs base limit = base :: objAddrs (base + 16) limit := by
      rw [objAddrs, if_pos hlt]
    have hlow : ∀ p ∈ objAddrs (base + 16) limit, base + 16 ≤ p :=
      fun p hp => (objAddrs_lower _ _ p hp).1
    by_cases hmk : mem base = fwdsig ∨ mem base = padsig
    · rw [if_pos hmk] at h
      obtain ⟨ihframe, ihobj⟩ :=
        cons_scan_aux fixw fwdsig padsig limit (base + 16) mem mem2 h
      constructor
      · intro q hq
        refine ihframe q (fun p hp => hq p ?_)
        rw [hobj]
        exact List.mem_cons_of_mem base hp
      · intro p hp
        rw [hobj] at hp
        rcases List.mem_cons.mp hp with rfl | hp2
        · refine ⟨fun _ => ⟨?_, ?_⟩, fun hnm => absurd hmk (by tauto)⟩
          · refine ihframe p (fun p2 hp2 => ?_)
            have := hlow p2 hp2
            omega
          · refine ihframe (p + 8) (fun p2 hp2 => ?_)
            have := hlow p2 hp2
            omega
        · exact ihobj p hp2
    · rw [if_neg hmk] at h
      rcases hcar : fixw (mem base) with _ | car2
      · rw [hcar] at h; simp at h
      · rw [hcar] at h
        dsimp only at h
        have hread : updSlot mem base car2 (base + 8) = mem (base + 8) := by
          unfold updSlot
          rw [if_neg (by omega)]
        rw [hread] at h
        rcases hcdr : fixw (mem (base + 8)) with _ | cdr2
        · rw [hcdr] at h; simp at h
        · rw [hcdr] at h
          dsimp only at h
          obtain ⟨ihframe, ihobj⟩ :=
            cons_scan_aux fixw fwdsig padsig limit (base + 16)
              (updSlot (updSlot mem base car2) (base + 8) cdr2) mem2 h
          have hN1 : ∀ q, q ≠ base → q ≠ base + 8 →
              updSlot (updSlot mem base car2) (base + 8) cdr2 q = mem q := by
            intro q h1 h2
            unfold updSlot
            rw [if_neg h2, if_neg h1]
          have hNbase : updSlot (updSlot mem base car2) (base + 8) cdr2 base = car2 := by
            unfold updSlot
            rw [if_neg (by omega), if_pos rfl]
          have hNb8 : updSlot (updSlot mem base car2) (base + 8) cdr2 (base + 8) = cdr2 := by
            unfold updSlot
            rw [if_pos rfl]
          constructor
          · intro q hq
            have hqb := hq base (by rw [hobj]; exact List.mem_cons_self base _)
            have hframe := ihframe q (fun p hp => hq p (by
              rw [hobj]
              exact List.mem_cons_of_mem base hp))
            rw [hframe]
            exact hN1 q hqb.1 hqb.2
          · intro p hp
            rw [hobj] at hp
            rcases List.mem_cons.mp hp with rfl | hp2
            · refine ⟨fun hmark => absurd hmark hmk, fun _ => ?_⟩
              have hfb : mem2 p = car2 := by
                have := ihframe p (fun p2 hp2 => by
                  have := hlow p2 hp2
                  omega)
                rw [this, hNbase]
              have hfb8 : mem2 (p + 8) = cdr2 := by
                have := ihframe (p + 8) (fun p2 hp2 => by
                  have := hlow p2 hp2
                  omega)
                rw [this, hNb8]
              rw [hfb, hfb8]
              exact ⟨hcar, hcdr⟩
            · have hple : base + 16 ≤ p := hlow p hp2
              have e1 : updSlot (updSlot mem base car2) (base + 8) cdr2 p = mem p :=
                hN1 p (by omega) (by omega)
              have e2 : updSlot (updSlot mem base car2) (base + 8) cdr2 (p + 8)
                  = mem (p + 8) :=
                hN1 (p + 8) (by omega) (by omega)
              have hres := ihobj p hp2
              rw [e1, e2] at hres
              exact hres
  · rw [cons_scan, if_neg hlt] at h
    have hm := Option.some.inj h
    have hempty : objAddrs base limit = [] := by
      rw [objAddrs, if_neg hlt]
    subst hm
    constructor
    · intro q _
      rfl
    · intro p hp
      rw [hempty] at hp
      cases hp
termination_by limit - base
decreasing_by all_goals omega

/-- C4: on a successful scan of the cons-pool range [base, limit), every
cons-sized object is visited in address order (the objects are exactly
those listed by objAddrs); an object whose first word is the forwarding
or padding signature is skipped with neither of its words touched; every
other object has the fix step applied to exactly its car and cdr slots —
their new contents are the fix results of their old contents, and no word
outside the car/cdr slots of the visited objects changes. -/
theorem cons_scan_visits_each_object (fixw : Nat → Option Nat)
    (fwdsig padsig base limit : Nat) (mem mem2 : Nat → Nat)
    (h : cons_scan fixw fwdsig padsig base limit mem = some mem2) :
    (∀ q, (∀ p ∈ objAddrs base limit, q ≠ p ∧ q ≠ p + 8) → mem2 q = mem q)
    ∧ (∀ p ∈ objAddrs base limit,
        ((mem p = fwdsig ∨ mem p = padsig) →
           mem2 p = mem p ∧ mem2 (p + 8) = mem (p + 8))
        ∧ ((mem p ≠ fwdsig ∧ mem p ≠ padsig) →
           fixw (mem p) = some (mem2 p) ∧ fixw (mem (p + 8)) = some (mem2 (p + 8)))) :=
  cons_scan_aux fixw fwdsig padsig limit base mem mem2 h

def fixwW : Nat → Option Nat := fun w => some (w + 8)

def memScanW : Nat → Nat :=
  fun q => if q = 0 then 1 else if q = 16 then 5 else if q = 24 then 7 else 0

def memScanW2 : Nat → Nat := updSlot (updSlot memScanW 16 13) 24 15

theorem cons_scan_visits_each_object_witness :
    (fixwW (memScanW 16) = some (memScanW2 16)
     ∧ fixwW (memScanW 24) = some (memScanW2 24))
    ∧ (memScanW2 0 = memScanW 0 ∧ memScanW2 8 = memScanW 8) := by
  have hoa : objAddrs 0 32 = [0, 16] := by
    rw [objAddrs, if_pos (by omega), objAddrs, if_pos (by omega),
      objAddrs, if_neg (by omega)]
  have hscan : cons_scan fixwW 1 2 0 32 memScanW = some memScanW2 := by
    rw [cons_scan, if_pos (by omega), if_pos (by decide),
      cons_scan, if_pos (by omega), if_neg (by decide)]
    simp only [fixwW]
    rw [cons_scan, if_neg (by omega)]
    rfl
  have H := cons_scan_visits_each_object fixwW 1 2 0 32 memScanW memScanW2 hscan
  exact ⟨(H.2 16 (by rw [hoa]; decide)).2 (by decide),
         (H.2 0 (by rw [hoa]; decide)).1 (by decide)⟩

/-! ### The root registry (IGC_DEFINE_LIST, register_root, deregister_root)

The doubly-linked list of igc_root_list nodes is modelled with an
explicit node heap: node addresses are Nats, `heap` maps a node address
to its contents (`none` = not allocated), `head` is the list head
pointer, and `fresh` is the next address xzalloc returns (freshness of
allocation is a hypothesis where needed).  The push and remove operations
transcribe igc_root_list_push and igc_root_list_remove of igc.c. -/

structure IgcRoot where
  gc : Nat
  root : Nat
  start : Nat
  endp : Nat

structure RootNode where
  next : Option Nat
  prev : Option Nat
  d : IgcRoot

structure RootRegistry where
  heap : Nat → Option RootNode
  head : Option Nat
  fresh : Nat

/-- Writing to a node heap: xzalloc of a new node. -/
def heapAlloc (heap : Nat → Option RootNode) (id : Nat) (node : RootNode) :
    Nat → Option RootNode :=
  fun q => if q = id then some node else heap q

/-- Writing to a node heap: xfree of a node. -/
def heapFree (heap : Nat → Option RootNode) (id : Nat) : Nat → Option RootNode :=
  fun q => if q = id then none else heap q

/-- Writing to a node heap: the assignment node->prev = p. -/
def setPrev (heap : Nat → Option RootNode) (a : Nat) (p : Option Nat) :
    Nat → Option RootNode :=
  fun q => if q = a then (heap a).map (fun n => { n with prev := p }) else heap q

/-- Writing to a node heap: the assignment node->next = nx. -/
def setNext (heap : Nat → Option RootNode) (a : Nat) (nx : Option Nat) :
    Nat → Option RootNode :=
  fun q => if q = a then (heap a).map (fun n => { n with next := nx }) else heap q

theorem heapAlloc_self (heap : Nat → Option RootNode) (id : Nat) (node : RootNode) :
    heapAlloc heap id node id = some node := by
  unfold heapAlloc
  rw [if_pos rfl]

theorem heapAlloc_other (heap : Nat → Option RootNode) (id q : Nat) (node : RootNode)
    (h : q ≠ id) : heapAlloc heap id node q = heap q := by
  unfold heapAlloc
  rw [if_neg h]

theorem heapFree_self (heap : Nat → Option RootNode) (id : Nat) :
    heapFree heap id id = none := by
  unfold heapFree
  rw [if_pos rfl]

theorem heapFree_other (heap : Nat → Option RootNode) (id q : Nat) (h : q ≠ id) :
    heapFree heap id q = heap q := by
  unfold heapFree
  rw [if_neg h]

theorem setPrev_self (heap : Nat → Option RootNode) (a : Nat) (p : Option Nat) :
    setPrev heap a p a = (heap a).map (fun n => { n with prev := p }) := by
  unfold setPrev
  rw [if_pos rfl]

theorem setPrev_other (heap : Nat → Option RootNode) (a q : Nat) (p : Option Nat)
    (h : q ≠ a) : setPrev heap a p q = heap q := by
  unfold setPrev
  rw [if_neg h]

/-- Shallow embedding of igc_root_list_push of igc.c: allocate a fresh
node holding `d`, link it before the old head, fix the old head prev
pointer, and make it the new head.  Returns the new node address. -/
def igc_root_list_push (st : RootRegistry) (d : IgcRoot) : RootRegistry × Nat :=
  let id := st.fresh
  let heap1 := heapAlloc st.heap id { next := st.head, prev := none, d := d }
  let heap2 := match st.head with
    | some h => setPrev heap1 h (some id)
    | none => heap1
  ({ heap := heap2, head := some id, fresh := id + 1 }, id)

/-- Shallow embedding of igc_root_list_remove of igc.c: unlink the node
at `id` (fixing the prev/next pointers of its neighbours, or the head
pointer when it is first), free it, and hand back the data it held. -/
def igc_root_list_remove (st : RootRegistry) (id : Nat) :
    RootRegistry × Option IgcRoot :=
  match st.heap id with
  | none => (st, none)
  | some r =>
      let heap1 := match r.next with
        | some n => setPrev st.heap n r.prev
        | none => st.heap
      let heap2 := match r.prev with
        | some p => setNext heap1 p r.next
        | none => heap1
      let head2 := match r.prev with
        | some _ => st.head
        | none => r.next
      ({ heap := heapFree heap2 id, head := head2, fresh := st.fresh }, some r.d)

/-- Shallow embedding of register_root of igc.c: build the igc_root
record and push it; the value is the new list node (its address). -/
def register_root (st : RootRegistry) (gc root start endp : Nat) :
    RootRegistry × Nat :=
  igc_root_list_push st { gc := gc, root := root, start := start, endp := endp }

/-- Shallow embedding of deregister_root of igc.c: remove the node and
return the MPS root stored in it. -/
def deregister_root (st : RootRegistry) (id : Nat) : RootRegistry × Option Nat :=
  ((igc_root_list_remove st id).1, (igc_root_list_remove st id).2.map (fun d => d.root))

/-- C10: registering a root and then deregistering the returned handle is
a round trip.  Hypotheses: xzalloc returns an unused node address, and
the registry is well formed at its head (the head node exists and its
prev pointer is null).  Then deregister_root returns exactly the mps_root
passed to register_root, and the registry afterwards has exactly the
original node heap and head pointer — the same roots, in the same
well-formed doubly-linked state. -/
theorem register_deregister_round_trip
    (st : RootRegistry) (gc root start endp : Nat)
    (hfresh : st.heap st.fresh = none)
    (hhead : ∀ h, st.head = some h → ∃ n, st.heap h = some n ∧ n.prev = none) :
    (deregister_root (register_root st gc root start endp).1
        (register_root st gc root start endp).2).2 = some root
    ∧ (deregister_root (register_root st gc root start endp).1
        (register_root st gc root start endp).2).1.heap = st.heap
    ∧ (deregister_root (register_root st gc root start endp).1
        (register_root st gc root start endp).2).1.head = st.head := by
  rcases hh : st.head with _ | h0
  · -- empty registry
    have hpush : register_root st gc root start endp
        = ({ heap := heapAlloc st.heap st.fresh
               { next := none, prev := none,
                 d := { gc := gc, root := root, start := start, endp := endp } },
             head := some st.fresh, fresh := st.fresh + 1 }, st.fresh) := by
      simp [register_root, igc_root_list_push, hh]
    rw [hpush]
    simp only [deregister_root, igc_root_list_remove]
    rw [heapAlloc_self]
    dsimp only
    refine ⟨rfl, ?_, rfl⟩
    funext q
    by_cases hq : q = st.fresh
    · subst hq
      rw [heapFree_self, hfresh]
    · rw [heapFree_other _ _ _ hq, heapAlloc_other _ _ _ _ hq]
  · -- non-empty registry: the old head gets its prev pointer set and restored
    obtain ⟨n0, hn0, hprev0⟩ := hhead h0 hh
    obtain ⟨n0next, n0prev, n0d⟩ := n0
    dsimp only at hprev0
    subst hprev0
    have hne : h0 ≠ st.fresh := by
      intro he
      rw [he, hfresh] at hn0
      cases hn0
    have hpush : register_root st gc root start endp
        = ({ heap := setPrev
               (heapAlloc st.heap st.fresh
                 { next := some h0, prev := none,
                   d := { gc := gc, root := root, start := start, endp := endp } })
               h0 (some st.fresh),
             head := some st.fresh, fresh := st.fresh + 1 }, st.fresh) := by
      simp [register_root, igc_root_list_push, hh]
    have hH1id : setPrev
        (heapAlloc st.heap st.fresh
          { next := some h0, prev := none,
            d := { gc := gc, root := root, start := start, endp := endp } })
        h0 (some st.fresh) st.fresh
        = some { next := some h0, prev := none,
                 d := { gc := gc, root := root, start := start, endp := endp } } := by
      rw [setPrev_other _ _ _ _ (Ne.symm hne), heapAlloc_self]
    rw [hpush]
    simp only [deregister_root, igc_root_list_remove]
    rw [hH1id]
    dsimp only
    refine ⟨rfl, ?_, rfl⟩
    funext q
    by_cases hq : q = st.fresh
    · subst hq
      rw [heapFree_self, hfresh]
    · rw [heapFree_other _ _ _ hq]
      by_cases hq0 : q = h0
      · subst hq0
        rw [setPrev_self, setPrev_self, heapAlloc_other _ _ _ _ hne, hn0]
        rfl
      · rw [setPrev_other _ _ _ _ hq0, setPrev_other _ _ _ _ hq0,
          heapAlloc_other _ _ _ _ hq]

def rootRegW : RootRegistry :=
  ⟨fun q => if q = 0 then some ⟨none, none, ⟨3, 4, 100, 200⟩⟩ else none, some 0, 1⟩

theorem register_deregister_round_trip_witness :
    (deregister_root (register_root rootRegW 1 9 10 20).1
        (register_root rootRegW 1 9 10 20).2).2 = some 9
    ∧ (deregister_root (register_root rootRegW 1 9 10 20).1
        (register_root rootRegW 1 9 10 20).2).1.head = rootRegW.head :=
  ⟨(register_deregister_round_trip rootRegW 1 9 10 20 rfl
      (fun h hh => by
        injection hh with hh
        exact ⟨⟨none, none, ⟨3, 4, 100, 200⟩⟩, by rw [← hh]; rfl, rfl⟩)).1,
   (register_deregister_round_trip rootRegW 1 9 10 20 rfl
      (fun h hh => by
        injection hh with hh
        exact ⟨⟨none, none, ⟨3, 4, 100, 200⟩⟩, by rw [← hh]; rfl, rfl⟩)).2.2⟩

end EmacsIgc
